import Mathlib

/-!
Verification of the usercrixus/xv6 kernel core against its specification.

Each section shallow-embeds the C functions a claim is about (the source
file and symbol are named in the doc comment of every definition) and the
theorems settle the claims.  Machine integers are modelled as Nat/Int;
pointers are modelled as indices or as Option values (none = null);
functions that can panic return Option (none = panic).
-/

namespace Xv6

/-! ## System-call argument fetch (syscall.c: fetchint, argint)

User memory is a map from byte address to the 32-bit word read by
a 4-byte load at that address. -/

/-- Result of fetchint from syscall.c.  In this repository the range check
against the calling process user size is commented out in the source (the
surrounding comment says the check was removed); the function dereferences
the address unconditionally and returns 0.  The result pairs the C return
value with the word read by the load. -/
def fetchint (mem : Nat → Int) (addr : Nat) : Int × Int :=
  (0, mem addr)

/-- The function argint from syscall.c: fetches the n-th 32-bit system-call
argument from the user stack pointer saved in the trap frame, skipping one
slot for the user-mode return address. -/
def argint (mem : Nat → Int) (esp : Nat) (n : Nat) : Int × Int :=
  fetchint mem (esp + 4 + 4 * n)

/-! ## The staged log header and log_write (log.c) -/

/-- MAXOPBLOCKS from param.h. -/
def MAXOPBLOCKS : Nat := 10

/-- LOGSIZE from param.h: MAXOPBLOCKS * 3. -/
def LOGSIZE : Nat := MAXOPBLOCKS * 3

/-- The function log_write from log.c, acting on the staged header.  The
header is the first lh.n entries of lh.block, modelled as a list of block
numbers in slot order.  The C code panics when lh.n is at capacity
(lh.n at least LOGSIZE, or at least size - 1) or when no operation is
outstanding; then its absorption loop scans block[0..n) for blockno and
appends blockno with n incremented only when the scan found nothing.
none models the panic. -/
def logWrite (outstanding logsize : Nat) (hdr : List Nat) (blockno : Nat) :
    Option (List Nat) :=
  if LOGSIZE ≤ hdr.length ∨ logsize - 1 ≤ hdr.length then none
  else if outstanding < 1 then none
  else if blockno ∈ hdr then some hdr
  else some (hdr ++ [blockno])

/-! ## The wait system call (proc.c: wait) -/

/-- Process states from proc.h. -/
inductive PState where
  | unused | embryo | sleeping | runnable | running | zombie
deriving DecidableEq, Repr

/-- The process-table fields of struct proc that wait reads: slot index of
the parent (pointer identity in C), state, pid, killed flag. -/
structure PEntry where
  pid : Nat
  parent : Nat
  state : PState
  killed : Bool
deriving DecidableEq, Repr

/-- Outcome of one pass of the scan loop in wait (proc.c): reap the first
zombie child and return its pid, return -1, or sleep on the wait channel
and rescan. -/
inductive WaitOutcome where
  | reaped (pid : Nat)
  | retMinusOne
  | sleeps
deriving DecidableEq, Repr

/-- One iteration of the for loop of wait (proc.c), scanning the table for
children of the process in slot cur.  The C loop reaps the first child in
slot order whose state is ZOMBIE; after the scan it returns -1 when the
process has no children or its killed flag is set, and otherwise sleeps on
itself as channel. -/
def waitScan (tbl : List PEntry) (cur : Nat) (curKilled : Bool) : WaitOutcome :=
  match tbl.find? (fun p => p.parent == cur && p.state == PState.zombie) with
  | some p => WaitOutcome.reaped p.pid
  | none =>
      if !(tbl.any (fun p => p.parent == cur)) || curKilled then
        WaitOutcome.retMinusOne
      else
        WaitOutcome.sleeps

/-! ## Spinlocks and the interrupt-disable discipline (spinlock.c) -/

/-- Per-CPU state read and written by the spinlock layer: the hardware
eflags interrupt-enable bit, the interrupt-disable nesting depth ncli and
the saved outermost enable flag intena of struct cpu (proc.h), and the
spinlocks this CPU currently holds (those with lk.locked set and lk.cpu
equal to this CPU), as a list of lock identifiers. -/
structure CpuSt where
  ifEnabled : Bool
  ncli : Nat
  intena : Bool
  held : List Nat
deriving DecidableEq, Repr

/-- The function pushcli from spinlock.c: read eflags, execute cli, save
the IF bit into intena on the outermost push only, increment ncli. -/
def pushcli (s : CpuSt) : CpuSt :=
  { s with
    ifEnabled := false
    intena := if s.ncli = 0 then s.ifEnabled else s.intena
    ncli := s.ncli + 1 }

/-- The function popcli from spinlock.c: panics when interrupts are
enabled on entry or when the depth would go negative; decrements ncli and
executes sti exactly when the depth reaches 0 and intena was saved set.
none models the panic. -/
def popcli (s : CpuSt) : Option CpuSt :=
  if s.ifEnabled then none
  else if s.ncli = 0 then none
  else some { s with
    ncli := s.ncli - 1
    ifEnabled := decide (s.ncli - 1 = 0) && s.intena }

/-- The function acquire from spinlock.c, for lock l on this CPU: pushcli,
panic on re-entrant acquisition, then take the held bit (the xchg loop
terminates once no other CPU holds the lock; the model tracks only this
holdings of this CPU).  none models the panic. -/
def acquireLock (l : Nat) (s : CpuSt) : Option CpuSt :=
  if l ∈ (pushcli s).held then none
  else some { pushcli s with held := l :: (pushcli s).held }

/-- The function release from spinlock.c, for lock l: panic unless
holding, clear the held bit with a single store, then popcli.  none
models the panic. -/
def releaseLock (l : Nat) (s : CpuSt) : Option CpuSt :=
  if l ∈ s.held then popcli { s with held := s.held.erase l }
  else none

/-- One successful acquire or release performed by the CPU. -/
inductive SpinStep : CpuSt → CpuSt → Prop where
  | acq (l : Nat) (s s2 : CpuSt) : acquireLock l s = some s2 → SpinStep s s2
  | rel (l : Nat) (s s2 : CpuSt) : releaseLock l s = some s2 → SpinStep s s2

/-- States reachable from a given state by acquires and releases. -/
def SpinReach : CpuSt → CpuSt → Prop := Relation.ReflTransGen SpinStep

/-- The inductive invariant: the number of held locks never exceeds the
disable depth, and interrupts can only be enabled at depth 0. -/
def SpinInv (s : CpuSt) : Prop :=
  s.held.length ≤ s.ncli ∧ (s.ifEnabled = true → s.ncli = 0)

theorem spinStep_preserves_inv {s s2 : CpuSt} (h : SpinStep s s2)
    (hi : SpinInv s) : SpinInv s2 := by
  obtain ⟨hlen, hif⟩ := hi
  cases h with
  | acq l s s2 hacq =>
      unfold acquireLock at hacq
      split at hacq
      · exact Option.noConfusion hacq
      · rw [Option.some_inj] at hacq
        subst hacq
        refine ⟨?_, ?_⟩
        · simp only [pushcli, List.length_cons]
          omega
        · intro hfalse
          simp [pushcli] at hfalse
  | rel l s s2 hrel =>
      unfold releaseLock at hrel
      split at hrel
      case isFalse => exact Option.noConfusion hrel
      case isTrue hmem =>
        unfold popcli at hrel
        split at hrel
        · exact Option.noConfusion hrel
        · split at hrel
          · exact Option.noConfusion hrel
          case isFalse hncli =>
            rw [Option.some_inj] at hrel
            subst hrel
            have hlene : (s.held.erase l).length = s.held.length - 1 :=
              List.length_erase_of_mem hmem
            have hone : 1 ≤ s.held.length := List.length_pos.mpr
              (List.ne_nil_of_mem hmem)
            refine ⟨?_, ?_⟩
            · simp only [hlene]
              omega
            · intro htrue
              rw [Bool.and_eq_true, decide_eq_true_iff] at htrue
              exact htrue.1

/-- C8: from a boot state holding no lock at disable depth 0, every state
reachable by acquires and releases satisfies: while any spinlock is held,
interrupts are disabled and the disable depth is at least 1.  Moreover the
first (outermost) pushcli saves the hardware enable flag into intena, a
nested pushcli does not overwrite it, the matching last popcli restores
the saved flag to the hardware, and a non-final popcli leaves interrupts
disabled. -/
theorem spinlock_interrupt_invariant (s0 s : CpuSt)
    (hheld : s0.held = []) (hncli : s0.ncli = 0) (hreach : SpinReach s0 s) :
    (s.held ≠ [] → s.ifEnabled = false ∧ 1 ≤ s.ncli) ∧
    (s.ncli = 0 → (pushcli s).intena = s.ifEnabled) ∧
    (s.ncli ≠ 0 → (pushcli s).intena = s.intena) ∧
    (∀ s2 : CpuSt, s.ncli = 1 → popcli s = some s2 →
      s2.ifEnabled = s.intena) ∧
    (∀ s2 : CpuSt, 2 ≤ s.ncli → popcli s = some s2 →
      s2.ifEnabled = false) := by
  have hinv : SpinInv s := by
    induction hreach with
    | refl => exact ⟨by simp [hheld, hncli], fun _ => hncli⟩
    | tail _ step ih => exact spinStep_preserves_inv step ih
  obtain ⟨hlen, hifd⟩ := hinv
  refine ⟨?_, ?_, ?_, ?_, ?_⟩
  · intro hne
    have h1 : 1 ≤ s.held.length := List.length_pos.mpr hne
    refine ⟨?_, by omega⟩
    cases hifb : s.ifEnabled
    · rfl
    · have := hifd hifb
      omega
  · intro h0
    simp [pushcli, h0]
  · intro h0
    simp [pushcli, h0]
  · intro s2 h1 hp
    unfold popcli at hp
    split at hp
    · exact Option.noConfusion hp
    · split at hp
      · exact Option.noConfusion hp
      · rw [Option.some_inj] at hp
        subst hp
        show (decide (s.ncli - 1 = 0) && s.intena) = s.intena
        rw [h1]
        simp
  · intro s2 h2 hp
    unfold popcli at hp
    split at hp
    · exact Option.noConfusion hp
    · split at hp
      · exact Option.noConfusion hp
      · rw [Option.some_inj] at hp
        subst hp
        show (decide (s.ncli - 1 = 0) && s.intena) = false
        have hnz : ¬ (s.ncli - 1 = 0) := by omega
        simp [hnz]

/-- Witness for the spinlock invariant: one acquire from the boot state
with interrupts enabled leads to the held state with interrupts disabled,
depth 1 and the enable flag saved. -/
theorem spinlock_interrupt_invariant_witness :
    ((⟨false, 1, true, [5]⟩ : CpuSt).held ≠ [] →
      (⟨false, 1, true, [5]⟩ : CpuSt).ifEnabled = false ∧
      1 ≤ (⟨false, 1, true, [5]⟩ : CpuSt).ncli) ∧
    ((⟨false, 1, true, [5]⟩ : CpuSt).ncli = 0 →
      (pushcli ⟨false, 1, true, [5]⟩).intena =
        (⟨false, 1, true, [5]⟩ : CpuSt).ifEnabled) ∧
    ((⟨false, 1, true, [5]⟩ : CpuSt).ncli ≠ 0 →
      (pushcli ⟨false, 1, true, [5]⟩).intena =
        (⟨false, 1, true, [5]⟩ : CpuSt).intena) ∧
    (∀ s2 : CpuSt, (⟨false, 1, true, [5]⟩ : CpuSt).ncli = 1 →
      popcli ⟨false, 1, true, [5]⟩ = some s2 →
      s2.ifEnabled = (⟨false, 1, true, [5]⟩ : CpuSt).intena) ∧
    (∀ s2 : CpuSt, 2 ≤ (⟨false, 1, true, [5]⟩ : CpuSt).ncli →
      popcli ⟨false, 1, true, [5]⟩ = some s2 →
      s2.ifEnabled = false) :=
  spinlock_interrupt_invariant ⟨true, 0, false, []⟩ ⟨false, 1, true, [5]⟩
    rfl rfl
    (Relation.ReflTransGen.single (SpinStep.acq 5 _ _ (by decide)))

/-! ## Closing an open file and the lock discipline (file.c: fileclose) -/

/-- Open-file types FD_NONE, FD_PIPE, FD_INODE from file.h. -/
inductive FType where
  | fdNone | fdPipe | fdInode
deriving DecidableEq, Repr

/-- Kernel lock identifiers appearing in the traces below. -/
inductive KLock where
  | ftableLock
deriving DecidableEq, Repr

/-- Events emitted by fileclose in program order: spinlock acquire and
release, and the release path run when the reference count reaches 0. -/
inductive FcEv where
  | acqEv (l : KLock)
  | relEv (l : KLock)
  | beginOpEv
  | iputEv
  | endOpEv
  | pipecloseEv
deriving DecidableEq, Repr

/-- The reference count and type of a struct file, the fields fileclose
reads. -/
structure OFile where
  ref : Nat
  ftype : FType
deriving DecidableEq, Repr

/-- The function fileclose from file.c, as the updated file plus the trace
of the lock operations and calls it performs, in source order: it acquires
ftable.lock first and releases it last, so on the last-reference inode
path the begin_op, iput, end_op sequence runs between the acquire and the
release.  none models the panic when the reference count is below 1. -/
def fileclose (f : OFile) : Option (OFile × List FcEv) :=
  if f.ref < 1 then none
  else if 0 < f.ref - 1 then
    some ({ f with ref := f.ref - 1 },
      [FcEv.acqEv KLock.ftableLock, FcEv.relEv KLock.ftableLock])
  else
    match f.ftype with
    | FType.fdPipe =>
        some ({ ref := 0, ftype := FType.fdNone },
          [FcEv.acqEv KLock.ftableLock, FcEv.pipecloseEv,
           FcEv.relEv KLock.ftableLock])
    | FType.fdInode =>
        some ({ ref := 0, ftype := FType.fdNone },
          [FcEv.acqEv KLock.ftableLock, FcEv.beginOpEv, FcEv.iputEv,
           FcEv.endOpEv, FcEv.relEv KLock.ftableLock])
    | FType.fdNone =>
        some ({ ref := 0, ftype := FType.fdNone },
          [FcEv.acqEv KLock.ftableLock, FcEv.relEv KLock.ftableLock])

/-- The spinlocks held by the calling CPU at the moment the first begin_op
event of a trace runs, given the locks already held; none when the trace
never reaches begin_op. -/
def locksAtBeginOp : List FcEv → List KLock → Option (List KLock)
  | [], _ => none
  | FcEv.acqEv l :: r, h => locksAtBeginOp r (l :: h)
  | FcEv.relEv l :: r, h => locksAtBeginOp r (h.erase l)
  | FcEv.beginOpEv :: _, h => some h
  | FcEv.iputEv :: r, h => locksAtBeginOp r h
  | FcEv.endOpEv :: r, h => locksAtBeginOp r h
  | FcEv.pipecloseEv :: r, h => locksAtBeginOp r h

/-! ## Pipe creation (pipe.c: pipealloc; sysfile.c: sys_pipe, fdalloc;
file.c: filealloc) -/

/-- Replace the element at an index by applying f (helper for array
updates on C arrays modelled as lists). -/
def listModify (f : α → α) : List α → Nat → List α
  | [], _ => []
  | a :: t, 0 => f a :: t
  | a :: t, n + 1 => a :: listModify f t n

/-- The fields of struct file (file.h) used by pipe creation.  The fpipe
field is the struct pipe pointer as a page address, 0 for null. -/
structure FSlot where
  ref : Nat
  ftype : FType
  readable : Bool
  writable : Bool
  fpipe : Nat
deriving DecidableEq, Repr

/-- A pipe control block as initialised by pipealloc (pipe.c). -/
structure PipeCB where
  readopen : Bool
  writeopen : Bool
  nread : Nat
  nwrite : Nat
deriving DecidableEq, Repr

/-- Kernel state touched by the pipe system call: the global open-file
table ftable (file.c), the kalloc freelist of page addresses, the pipe
control blocks by page address, and the ofile array of the calling process
(struct file* per descriptor, modelled as a ftable index, none = null). -/
structure PipeSt where
  ftable : List FSlot
  freelist : List Nat
  pipes : Nat → Option PipeCB
  ofile : List (Option Nat)

/-- The function filealloc from file.c: claim the first slot of ftable
whose reference count is 0, setting it to 1; none when the table is
full. -/
def filealloc (tbl : List FSlot) : Option Nat × List FSlot :=
  match tbl.findIdx? (fun f => f.ref == 0) with
  | some i => (some i, listModify (fun f => { f with ref := 1 }) tbl i)
  | none => (none, tbl)

/-- The state effect of fileclose (file.c) on one ftable slot, used by the
pipealloc unwind: drop a reference; at zero, reset the type. -/
def filecloseSlot (f : FSlot) : FSlot :=
  if 0 < f.ref - 1 then { f with ref := f.ref - 1 }
  else { f with ref := 0, ftype := FType.fdNone }

/-- The function kalloc (kalloc.c), on the freelist: pop the head page,
none when memory is exhausted. -/
def kallocPage : List Nat → Option Nat × List Nat
  | [] => (none, [])
  | p :: rest => (some p, rest)

/-- The function pipealloc from pipe.c.  Its two parameters are declared
struct file* and passed by value; the function immediately overwrites its
local copies f0 and f1 with the slots it allocates, so the variables of the caller are untouched — only the C return value and the state change
escape.  On failure of any allocation it unwinds: kfree the page if
allocated, fileclose f0 and f1 if allocated.  On success it initialises
the pipe control block on the allocated page and wires its two local file
slots to it, f0 readable-only and f1 writable-only. -/
def pipealloc (st : PipeSt) (_f0arg _f1arg : Option Nat) : Int × PipeSt :=
  let (f0, tbl1) := filealloc st.ftable
  match f0 with
  | none => (-1, { st with ftable := tbl1 })
  | some i0 =>
    let (f1, tbl2) := filealloc tbl1
    match f1 with
    | none =>
        (-1, { st with ftable := listModify filecloseSlot tbl2 i0 })
    | some i1 =>
      let (pg, fl) := kallocPage st.freelist
      match pg with
      | none =>
          (-1,
            { st with
              ftable := listModify filecloseSlot
                (listModify filecloseSlot tbl2 i0) i1 })
      | some p =>
          (0,
            { st with
              ftable := listModify
                (fun _ =>
                  { ref := 1, ftype := FType.fdPipe, readable := true,
                    writable := false, fpipe := p })
                (listModify
                  (fun _ =>
                    { ref := 1, ftype := FType.fdPipe, readable := false,
                      writable := true, fpipe := p }) tbl2 i1) i0,
              freelist := fl,
              pipes := fun a =>
                if a = p then
                  some { readopen := true, writeopen := true,
                         nread := 0, nwrite := 0 }
                else st.pipes a })

/-- The function fdalloc from sysfile.c: store the given struct file
pointer into the first slot of ofile that holds null.  Storing a null
argument leaves the slot indistinguishable from free.  Result: the chosen
descriptor (none models the -1 when all slots are taken) and the array. -/
def fdalloc (ofile : List (Option Nat)) (f : Option Nat) :
    Option Nat × List (Option Nat) :=
  match ofile.findIdx? (fun slot => slot.isNone) with
  | some fd => (some fd, ofile.set fd f)
  | none => (none, ofile)

/-- The function sys_pipe from sysfile.c.  The locals rf and wf start
null and are passed to pipealloc by value, so they are still null when
fdalloc is called on them.  Result: the C return value, the state, and
the descriptor pair written to the user array on success; none models the
null dereference in the failure path, which calls fileclose on the null
rf and wf. -/
def sys_pipe (st : PipeSt) : Option (Int × PipeSt × Option (Nat × Nat)) :=
  let rf : Option Nat := none
  let wf : Option Nat := none
  let (r, st1) := pipealloc st rf wf
  if r < 0 then some (-1, st1, none)
  else
    let (fd0, of1) := fdalloc st1.ofile rf
    match fd0 with
    | none => none
    | some d0 =>
      let (fd1, of2) := fdalloc of1 wf
      match fd1 with
      | none => none
      | some d1 => some (0, { st1 with ofile := of2 }, some (d0, d1))

/-- The initial kernel state for the pipe-creation evaluation: an all-free
file table of NFILE slots, one free page, no pipes, an empty ofile
array of NOFILE slots. -/
def pipeInitSt : PipeSt :=
  { ftable := List.replicate 100
      { ref := 0, ftype := FType.fdNone, readable := false,
        writable := false, fpipe := 0 }
    freelist := [42]
    pipes := fun _ => none
    ofile := List.replicate 16 none }

/-! ## The inode block map (fs.c: bmap, writei; fs.h layout constants) -/

/-- BSIZE from fs.h: bytes per disk block. -/
def BSIZE : Nat := 512

/-- NDIRECT from fs.h: direct block pointers per inode. -/
def NDIRECT : Nat := 12

/-- NINDIRECT from fs.h: BSIZE / sizeof(uint), block pointers per indirect
block. -/
def NINDIRECT : Nat := BSIZE / 4

/-- MAXFILE from fs.h: largest file in blocks. -/
def MAXFILE : Nat := NDIRECT + NINDIRECT

/-- State bmap operates on: the block array of the inode addrs[0..NDIRECT]
(slot NDIRECT is the indirect pointer), the disk contents bmap reads and
writes through the buffer cache (disk b j is word j of block b), and the
allocator.  balloc (fs.c) is abstracted to a counter handing out fresh
block numbers; its out-of-blocks panic is unreachable under the
abstraction. -/
structure FsSt where
  addrs : Nat → Nat
  disk : Nat → Nat → Nat
  nextFree : Nat

/-- The function balloc from fs.c, abstracted to the allocation counter:
return the next unused block number and zero the new block, as balloc
does through bzero. -/
def balloc (st : FsSt) : Nat × FsSt :=
  (st.nextFree,
    { st with
      nextFree := st.nextFree + 1
      disk := fun b => if b = st.nextFree then (fun _ => 0) else st.disk b })

/-- The idiom if ((addr = ip.addrs[slot]) == 0) ip.addrs[slot] = addr =
balloc(ip.dev) of bmap (fs.c), for both the direct slots and the indirect
slot: read the array entry, allocating it on demand. -/
def ballocIfZero (st : FsSt) (slot : Nat) : Nat × FsSt :=
  if st.addrs slot = 0 then
    let p := balloc st
    (p.1, { p.2 with addrs := fun i => if i = slot then p.1 else p.2.addrs i })
  else (st.addrs slot, st)

/-- The indirect-entry idiom of bmap (fs.c): bread the indirect block b,
read entry j of its block-number array, allocating it on demand (followed
by log_write of the indirect block); the buffer-cache read/write is the
disk access in this model. -/
def diskAllocIfZero (st : FsSt) (b j : Nat) : Nat × FsSt :=
  if st.disk b j = 0 then
    let p := balloc st
    (p.1,
      { p.2 with
        disk := fun b2 =>
          if b2 = b then (fun k => if k = j then p.1 else p.2.disk b k)
          else p.2.disk b2 })
  else (st.disk b j, st)

/-- The function bmap from fs.c: return the disk block holding file block
bn of the inode, allocating missing blocks (and the indirect block itself)
on demand; none models the out-of-range panic. -/
def bmap (st : FsSt) (bn : Nat) : Option (Nat × FsSt) :=
  if bn < NDIRECT then
    some (ballocIfZero st bn)
  else if bn - NDIRECT < NINDIRECT then
    let p := ballocIfZero st NDIRECT
    some (diskAllocIfZero p.2 p.1 (bn - NDIRECT))
  else none

/-- The up-front checks of writei (fs.c, non-device path): the write fails
with -1 when it starts past the end of the file or would extend the file
past MAXFILE blocks; true means writei returns -1 before touching any
block.  The uint overflow test off + n < off of the source cannot fire
over Nat. -/
def writeiPrecheck (size off n : Nat) : Bool :=
  decide (size < off) || decide (MAXFILE * BSIZE < off + n)

/-! ## Unlink (sysfile.c: sys_unlink, isdirempty; fs.c: dirlookup)

The path walk of nameiparent is taken as resolved: sys_unlink below
receives the parent directory inode number and the final path component,
exactly the state of the source after its nameiparent and ilock calls;
the arg-fetch and nameiparent failure paths return -1 before this logic.
Inodes are addressed by inode number through a store, which matches the
aliasing of the inode cache (iget returns the same struct inode for the
same number). -/

/-- Inode types T_DIR, T_FILE, T_DEV from stat.h. -/
inductive IType where
  | tDir | tFile | tDev
deriving DecidableEq, Repr

/-- Directory-entry names, abstracted to identifiers compared by namecmp;
dot and dotdot are the reserved names, empty is the all-zero name of a
cleared entry. -/
inductive DName where
  | dot | dotdot | empty | other (id : Nat)
deriving DecidableEq, Repr

/-- A record of struct dirent (fs.h): inode number and name; inum 0 marks
a free slot.  The data of a directory is its records in offset order, the
record at byte offset off having index off / sizeof(struct dirent). -/
structure Dirent where
  inum : Nat
  name : DName
deriving DecidableEq, Repr

/-- The inode fields sys_unlink uses: type, link count, and (for
directories) the entry records of the directory data. -/
structure Inode where
  itype : IType
  nlink : Int
  ents : List Dirent
deriving DecidableEq, Repr

/-- The scan loop of dirlookup (fs.c) carrying the current record index:
skip free entries, return the inode number and record index of the first
name match. -/
def dirlookupFrom : List Dirent → DName → Nat → Option (Nat × Nat)
  | [], _, _ => none
  | d :: rest, nm, idx =>
      if d.inum ≠ 0 ∧ d.name = nm then some (d.inum, idx)
      else dirlookupFrom rest nm (idx + 1)

/-- The function dirlookup from fs.c on the entry records of a directory. -/
def dirlookup (ents : List Dirent) (nm : DName) : Option (Nat × Nat) :=
  dirlookupFrom ents nm 0

/-- The function isdirempty from sysfile.c: every record from byte offset
2 * sizeof(struct dirent) on — index 2 on — is free. -/
def isdirempty (ents : List Dirent) : Bool :=
  (ents.drop 2).all (fun d => d.inum == 0)

/-- The function sys_unlink from sysfile.c, after nameiparent resolved the
parent directory dpi and final component nm: refuse dot and dotdot;
refuse a missing target; panic when the link count of the target is below 1
(none); refuse a non-empty directory; otherwise zero the directory entry
record with writei, decrement the link count of the parent when the target is
a directory, decrement the link count of the target, and return 0. -/
def sys_unlink (ist : Nat → Inode) (dpi : Nat) (nm : DName) :
    Option (Int × (Nat → Inode)) :=
  if nm = DName.dot ∨ nm = DName.dotdot then some (-1, ist)
  else
    match dirlookup (ist dpi).ents nm with
    | none => some (-1, ist)
    | some (inum, off) =>
        let ip := ist inum
        if ip.nlink < 1 then none
        else if ip.itype = IType.tDir ∧ ¬ isdirempty ip.ents then
          some (-1, ist)
        else
          let dpNew :=
            { ist dpi with
              ents := (ist dpi).ents.set off { inum := 0, name := DName.empty }
              nlink :=
                if ip.itype = IType.tDir then (ist dpi).nlink - 1
                else (ist dpi).nlink }
          let ist2 := fun i => if i = dpi then dpNew else ist i
          let ipNew := { ist2 inum with nlink := (ist2 inum).nlink - 1 }
          some (0, fun i => if i = inum then ipNew else ist2 i)

/-- A concrete inode store for the unlink witness: inode 1 is the root
directory with records ".", ".." and a file entry named 5 pointing at
inode 2; inode 2 is a file with one link; other numbers are free. -/
def unlinkStore : Nat → Inode := fun i =>
  if i = 1 then
    { itype := IType.tDir, nlink := 2
      ents := [{ inum := 1, name := DName.dot },
               { inum := 1, name := DName.dotdot },
               { inum := 2, name := DName.other 5 }] }
  else if i = 2 then { itype := IType.tFile, nlink := 1, ents := [] }
  else { itype := IType.tFile, nlink := 0, ents := [] }

/-! ## Pipe writes (pipe.c: pipewrite) -/

/-- PIPESIZE from pipe.c. -/
def PIPESIZE : Nat := 512

/-- The pipe fields pipewrite touches: the circular data buffer by slot,
the unbounded read and write cursors, and the read-open flag. -/
structure PipeBuf where
  data : Nat → Nat
  nread : Nat
  nwrite : Nat
  readopen : Bool

/-- What the writer observes when it wakes from sleep on the write
channel: the reader cursor, the read-open flag, and whether the writing
process has been killed meanwhile. -/
structure WakeObs where
  nread : Nat
  readopen : Bool
  killed : Bool

/-- Events of a pipewrite execution in program order: wakeup of the read
channel, sleep on the write channel, store of one byte into a slot of the
circular buffer. -/
inductive PEv where
  | wakeupRead
  | sleepWrite
  | putByte (slot : Nat) (b : Nat)
deriving DecidableEq, Repr

/-- Result of a pipewrite execution: the returned value with the final
pipe and the event trace, or fuel exhaustion while the writer is still
blocked on a full buffer. -/
inductive PWRes where
  | ret (r : Int) (p : PipeBuf) (evs : List PEv)
  | blocked (evs : List PEv)

/-- The events of either outcome. -/
def PWRes.evs : PWRes → List PEv
  | PWRes.ret _ _ e => e
  | PWRes.blocked e => e

/-- The loops of pipewrite (pipe.c): for each byte of src, while the
buffer is full (nwrite == nread + PIPESIZE) either return -1 when the
read end is closed or the process is killed, or wake readers and sleep on
the write channel, resuming with whatever the k-th wakeup observes (env
k); with space available, store the byte at slot nwrite % PIPESIZE and
advance nwrite.  After the last byte, wake readers and return n (the
total count, src.length at the top-level call).  fuel bounds the number
of loop iterations; blocked models an execution that is still waiting
when the fuel runs out. -/
def pipewriteGo (env : Nat → WakeObs) (n : Int) :
    Nat → List Nat → PipeBuf → Bool → Nat → List PEv → PWRes
  | _, [], p, _, _, evs => PWRes.ret n p (evs ++ [PEv.wakeupRead])
  | 0, _ :: _, _, _, _, evs => PWRes.blocked evs
  | fuel + 1, b :: rest, p, killed, k, evs =>
      if p.nwrite = p.nread + PIPESIZE then
        if p.readopen = false ∨ killed = true then PWRes.ret (-1) p evs
        else
          pipewriteGo env n fuel (b :: rest)
            { p with nread := (env k).nread, readopen := (env k).readopen }
            (env k).killed (k + 1) (evs ++ [PEv.wakeupRead, PEv.sleepWrite])
      else
        pipewriteGo env n fuel rest
          { p with
            data := fun j => if j = p.nwrite % PIPESIZE then b else p.data j
            nwrite := p.nwrite + 1 }
          killed k (evs ++ [PEv.putByte (p.nwrite % PIPESIZE) b])

/-- The function pipewrite from pipe.c on source bytes src. -/
def pipewrite (env : Nat → WakeObs) (fuel : Nat) (p : PipeBuf)
    (killed : Bool) (src : List Nat) : PWRes :=
  pipewriteGo env src.length fuel src p killed 0 []

/-- The byte-store events of a trace, in order. -/
def putBytes : List PEv → List (Nat × Nat)
  | [] => []
  | PEv.putByte s b :: r => (s, b) :: putBytes r
  | PEv.wakeupRead :: r => putBytes r
  | PEv.sleepWrite :: r => putBytes r

/-- The slot/byte stores that writing the given bytes from write cursor w
performs: one store per byte, at consecutive cursor values mod
PIPESIZE. -/
def pbList (w : Nat) : List Nat → List (Nat × Nat)
  | [] => []
  | b :: rest => (w % PIPESIZE, b) :: pbList (w + 1) rest

/-! ## User-memory growth (vm.c: allocuvm, deallocuvm, walkpgdir,
mappages; mmu.h constants)

Addresses are 32-bit in the source; theorems quantify over values below
2^32 where it matters.  Page-table pages are stored in the directory
entry they belong to, standing for the frame walkpgdir allocates for
them; that allocation still consumes the kalloc freelist as in the
source. -/

/-- PGSIZE from mmu.h. -/
def PGSIZE : Nat := 4096

/-- KERNBASE from memlayout.h: 0x80000000. -/
def KERNBASE : Nat := 2147483648

/-- NPTENTRIES from mmu.h. -/
def NPTENTRIES : Nat := 1024

/-- PGROUNDUP from mmu.h.  The source mask form
(sz + PGSIZE - 1) AND NOT (PGSIZE - 1) equals rounding up to the next
multiple of PGSIZE, written here by division. -/
def PGROUNDUP (sz : Nat) : Nat := ((sz + PGSIZE - 1) / PGSIZE) * PGSIZE

/-- PDX from mmu.h: (va >> 22) AND 0x3FF. -/
def PDX (va : Nat) : Nat := (va / 4194304) % 1024

/-- PTX from mmu.h: (va >> 12) AND 0x3FF. -/
def PTX (va : Nat) : Nat := (va / PGSIZE) % 1024

/-- A page-table entry of mmu.h: the present bit and the frame address
(carried in the 20-bit physicalAdress field; the model keeps the address
itself).  The permission and writable bits play no part in the claim and
are omitted. -/
structure PTE where
  present : Bool
  frame : Nat
deriving DecidableEq, Repr

/-- The state allocuvm operates on: the page directory (a second-level
table per present directory slot), the kalloc freelist of frame
addresses, and frame memory contents by frame address and offset. -/
structure VmSt where
  pd : Nat → Option (Nat → PTE)
  free : List Nat
  mem : Nat → Nat → Nat

/-- The user mapping visible at virtual address va: present flag and
frame, (false, 0) when the directory slot or the entry is absent. -/
def pview (st : VmSt) (va : Nat) : Bool × Nat :=
  match st.pd (PDX va) with
  | none => (false, 0)
  | some t =>
      if (t (PTX va)).present then (true, (t (PTX va)).frame)
      else (false, 0)

/-- Store entry e at the slot of va (directory slot PDX va, entry PTX va);
the directory slot must be present, as it is at every use below. -/
def setPte (st : VmSt) (a : Nat) (e : PTE) : VmSt :=
  { st with
    pd := fun d =>
      if d = PDX a then
        match st.pd (PDX a) with
        | none => none
        | some t => some (fun i => if i = PTX a then e else t i)
      else st.pd d }

/-- The function walkpgdir from vm.c with alloc = 1: return the page
table of the slot PDX va, allocating (from the kalloc freelist) and
zeroing a fresh one when the slot is absent; none when kalloc fails. -/
def walkAlloc (st : VmSt) (va : Nat) : Option (VmSt × (Nat → PTE)) :=
  match st.pd (PDX va) with
  | some t => some (st, t)
  | none =>
      match st.free with
      | [] => none
      | _ :: rest =>
          let t : Nat → PTE := fun _ => { present := false, frame := 0 }
          some
            ({ st with
               pd := fun d => if d = PDX va then some t else st.pd d
               free := rest }, t)

/-- Outcomes of mappages (vm.c) on one page: the new state, failure of
walkpgdir (mappages returns -1), or the remap panic. -/
inductive MapRes where
  | ok (st : VmSt)
  | fail
  | panicked

/-- The function mappages from vm.c for the single page of allocuvm
(va page-aligned, size PGSIZE): walk, panic when already present, else
install the present mapping to frame pa. -/
def mappage (st : VmSt) (va pa : Nat) : MapRes :=
  match walkAlloc st va with
  | none => MapRes.fail
  | some (st1, t) =>
      if (t (PTX va)).present then MapRes.panicked
      else MapRes.ok (setPte st1 va { present := true, frame := pa })

/-- The loop of deallocuvm (vm.c) over addresses a from the start up to
oldszV, one fuel per iteration: an absent directory slot makes a jump to
the start of the next slot (PGADDR(PDX(a)+1, 0, 0), the source subtracts
PGSIZE and the loop increment adds it back); a present entry frees its
frame — a zero frame is the kfree panic, none — and clears the entry;
an absent entry is skipped. -/
def deallocLoop (oldszV : Nat) : Nat → Nat → VmSt → Option VmSt
  | 0, a, st => if a < oldszV then none else some st
  | fuel + 1, a, st =>
      if a < oldszV then
        match st.pd (PDX a) with
        | none =>
            deallocLoop oldszV fuel ((PDX a + 1) * (NPTENTRIES * PGSIZE)) st
        | some t =>
            if (t (PTX a)).present then
              if (t (PTX a)).frame = 0 then none
              else
                deallocLoop oldszV fuel (a + PGSIZE)
                  { setPte st a { present := false, frame := 0 } with
                    free := (t (PTX a)).frame :: st.free }
            else deallocLoop oldszV fuel (a + PGSIZE) st
      else some st

/-- The function deallocuvm from vm.c: free the user pages from
PGROUNDUP(newszV) up to oldszV (no work when newszV ≥ oldszV); the fuel
oldszV covers the loop, which advances by at least one per iteration. -/
def deallocuvm (st : VmSt) (oldszV newszV : Nat) : Option VmSt :=
  if oldszV ≤ newszV then some st
  else deallocLoop oldszV oldszV (PGROUNDUP newszV) st

/-- The loop of allocuvm (vm.c) over addresses a from PGROUNDUP(oldszV)
up to newszV: kalloc a frame (on failure, deallocuvm back to oldszV and
return 0), zero it (memset), map it at a with mappages (on failure,
deallocuvm back and kfree the frame and return 0; a remap is the panic,
none), continue.  Returns newszV when the loop completes. -/
def allocLoop (newszV oldszV : Nat) : Nat → Nat → VmSt → Option (Nat × VmSt)
  | 0, a, st => if a < newszV then none else some (newszV, st)
  | fuel + 1, a, st =>
      if a < newszV then
        match kallocPage st.free with
        | (none, _) => (deallocuvm st newszV oldszV).map (fun st2 => (0, st2))
        | (some m, rest) =>
            let st1 :=
              { st with
                free := rest
                mem := fun f => if f = m then (fun _ => 0) else st.mem f }
            match mappage st1 a m with
            | MapRes.panicked => none
            | MapRes.fail =>
                (deallocuvm st1 newszV oldszV).map
                  (fun st2 => (0, { st2 with free := m :: st2.free }))
            | MapRes.ok st2 => allocLoop newszV oldszV fuel (a + PGSIZE) st2
      else some (newszV, st)

/-- The function allocuvm from vm.c: grow the user size from oldszV to
newszV; 0 when newszV reaches the kernel base; oldszV (no work) when
shrinking was requested; otherwise run the allocation loop. -/
def allocuvm (st : VmSt) (oldszV newszV : Nat) : Option (Nat × VmSt) :=
  if KERNBASE ≤ newszV then some (0, st)
  else if newszV < oldszV then some (oldszV, st)
  else allocLoop newszV oldszV newszV (PGROUNDUP oldszV) st

/-! ## Theorems for claims C1, C7, C10 -/

/-- C1 counterexample: a process of user size 0 (every address is outside
the user size) calling fetchint on address 4096 gets return value 0 and
the load is performed (the value 7 stored there is read), not the -1 the
claim requires for an out-of-range address. -/
theorem fetchint_out_of_range_succeeds :
    4096 + 4 > 0 ∧ fetchint (fun _ => 7) 4096 = (0, 7) :=
  ⟨by decide, rfl⟩

/-- C1 amended: fetching an integer argument performs no validation of the
source address against the process user size (the check is commented out
in the source); argint always returns 0 and the 4-byte load at
esp + 4 + 4n is performed unconditionally, for every address whatsoever. -/
theorem argint_never_fails (mem : Nat → Int) (esp n : Nat) :
    (argint mem esp n).1 = 0 ∧ (argint mem esp n).2 = mem (esp + 4 + 4 * n) :=
  ⟨rfl, rfl⟩

/-- C7: log absorption.  Within a transaction (at least one outstanding
operation) and below capacity, writing the same block number twice leaves
exactly one entry with that number in the staged header, and the header
count grows exactly when the number was not already present. -/
theorem logWrite_absorption (outstanding logsize : Nat) (hdr : List Nat)
    (blockno : Nat) (hout : 1 ≤ outstanding) (hnodup : hdr.Nodup)
    (hcap : hdr.length + 1 < LOGSIZE) (hcap2 : hdr.length + 1 < logsize - 1) :
    ∃ h1, logWrite outstanding logsize hdr blockno = some h1 ∧
      logWrite outstanding logsize h1 blockno = some h1 ∧
      h1.count blockno = 1 ∧
      h1.length = hdr.length + (if blockno ∈ hdr then 0 else 1) := by
  have hc1 : ¬ (LOGSIZE ≤ hdr.length ∨ logsize - 1 ≤ hdr.length) := by
    push_neg
    omega
  have hout' : ¬ outstanding < 1 := by omega
  by_cases hmem : blockno ∈ hdr
  · refine ⟨hdr, ?_, ?_, ?_, ?_⟩
    · unfold logWrite
      rw [if_neg hc1, if_neg hout', if_pos hmem]
    · unfold logWrite
      rw [if_neg hc1, if_neg hout', if_pos hmem]
    · have := List.count_eq_one_of_mem hnodup hmem
      simpa using this
    · simp [hmem]
  · have hc1' : ¬ (LOGSIZE ≤ (hdr ++ [blockno]).length ∨
        logsize - 1 ≤ (hdr ++ [blockno]).length) := by
      push_neg
      simp only [List.length_append, List.length_singleton]
      omega
    have hmem' : blockno ∈ hdr ++ [blockno] := by simp
    refine ⟨hdr ++ [blockno], ?_, ?_, ?_, ?_⟩
    · unfold logWrite
      rw [if_neg hc1, if_neg hout', if_neg hmem]
    · unfold logWrite
      rw [if_neg hc1', if_neg hout', if_pos hmem']
    · have hcnt : hdr.count blockno = 0 := List.count_eq_zero.mpr hmem
      simp [List.count_append, hcnt]
    · simp [hmem]

/-- Witness for the log-absorption theorem at a concrete header. -/
theorem logWrite_absorption_witness :
    ∃ h1, logWrite 1 30 [3, 17] 5 = some h1 ∧
      logWrite 1 30 h1 5 = some h1 ∧
      h1.count 5 = 1 ∧
      h1.length = [3, 17].length + (if 5 ∈ [3, 17] then 0 else 1) :=
  logWrite_absorption 1 30 [3, 17] 5 (by decide) (by decide) (by decide)
    (by decide)

/-- C10: if the calling process is marked killed and none of its children
is currently a zombie, wait returns -1 even when it still has un-reaped
children. -/
theorem wait_killed_returns_minus_one (tbl : List PEntry) (cur : Nat)
    (_hkids : ∃ c ∈ tbl, c.parent = cur)
    (hnz : ∀ p ∈ tbl, p.parent = cur → p.state ≠ PState.zombie) :
    waitScan tbl cur true = WaitOutcome.retMinusOne := by
  have hfind : tbl.find? (fun p => p.parent == cur && p.state == PState.zombie)
      = none := by
    rw [List.find?_eq_none]
    intro p hp
    simp only [Bool.and_eq_true, beq_iff_eq, not_and]
    intro hpar
    exact fun hs => hnz p hp hpar (by simpa using hs)
  simp [waitScan, hfind]

/-- Witness: a killed parent in slot 0 with a still-running child in slot 1
gets -1 from the wait scan. -/
theorem wait_killed_returns_minus_one_witness :
    waitScan [⟨1, 5, PState.running, true⟩, ⟨2, 0, PState.running, false⟩] 0
      true = WaitOutcome.retMinusOne :=
  wait_killed_returns_minus_one _ 0
    ⟨⟨2, 0, PState.running, false⟩, by decide, rfl⟩ (by decide)

/-- C4: evaluation of fileclose at the failing input, an inode-backed open
file whose reference count drops to 0.  The trace shows begin_op, iput and
end_op running between the acquire and the release of ftable.lock, and the
set of spinlocks held by the caller at the begin_op event is exactly the
file-table lock — not empty, as the claim requires for a path that sleeps
and reads from disk. -/
theorem fileclose_inode_runs_log_under_spinlock :
    fileclose { ref := 1, ftype := FType.fdInode } =
      some ({ ref := 0, ftype := FType.fdNone },
        [FcEv.acqEv KLock.ftableLock, FcEv.beginOpEv, FcEv.iputEv,
         FcEv.endOpEv, FcEv.relEv KLock.ftableLock]) ∧
    locksAtBeginOp
      [FcEv.acqEv KLock.ftableLock, FcEv.beginOpEv, FcEv.iputEv,
       FcEv.endOpEv, FcEv.relEv KLock.ftableLock] []
      = some [KLock.ftableLock] :=
  ⟨rfl, rfl⟩

/-- C2: evaluation of the pipe system call at a clean kernel state (whole
file table free, a free page, no descriptors open).  The call reports
success and writes the descriptor pair (0, 0) to the user: both returned
descriptors are the same slot, the slot still holds the null pointer (no
open-file object is referenced), and the two file-table entries pipealloc
wired to the pipe are left claimed (reference count 1) but unreachable —
because sys_pipe passes its null rf and wf to pipealloc by value and then
installs those nulls with fdalloc. -/
theorem sys_pipe_descriptors_refer_to_nothing :
    ∃ stf : PipeSt, sys_pipe pipeInitSt = some (0, stf, some (0, 0)) ∧
      stf.ofile.get? 0 = some none ∧
      (stf.ftable.get? 0).map FSlot.ref = some 1 ∧
      (stf.ftable.get? 1).map FSlot.ref = some 1 ∧
      (stf.ftable.get? 0).map FSlot.fpipe = some 42 :=
  ⟨_, rfl, rfl, rfl, rfl, rfl⟩

theorem ballocIfZero_fst_ne (st : FsSt) (slot : Nat) (h : 1 ≤ st.nextFree) :
    (ballocIfZero st slot).1 ≠ 0 := by
  unfold ballocIfZero
  split
  case isTrue h0 =>
    simp only [balloc]
    omega
  case isFalse h0 => exact h0

theorem ballocIfZero_addrs_self (st : FsSt) (slot : Nat) :
    (ballocIfZero st slot).2.addrs slot = (ballocIfZero st slot).1 := by
  unfold ballocIfZero
  split
  · simp
  · rfl

theorem ballocIfZero_addrs_other (st : FsSt) (slot i : Nat) (h : i ≠ slot) :
    (ballocIfZero st slot).2.addrs i = st.addrs i := by
  unfold ballocIfZero
  split
  · simp [balloc, h]
  · rfl

theorem ballocIfZero_nextFree (st : FsSt) (slot : Nat) (h : 1 ≤ st.nextFree) :
    1 ≤ (ballocIfZero st slot).2.nextFree := by
  unfold ballocIfZero
  split
  · simp only [balloc]
    omega
  · exact h

theorem diskAllocIfZero_fst_ne (st : FsSt) (b j : Nat) (h : 1 ≤ st.nextFree) :
    (diskAllocIfZero st b j).1 ≠ 0 := by
  unfold diskAllocIfZero
  split
  case isTrue h0 =>
    simp only [balloc]
    omega
  case isFalse h0 => exact h0

theorem diskAllocIfZero_disk_self (st : FsSt) (b j : Nat) :
    (diskAllocIfZero st b j).2.disk b j = (diskAllocIfZero st b j).1 := by
  unfold diskAllocIfZero
  split
  · simp
  · rfl

theorem diskAllocIfZero_addrs (st : FsSt) (b j : Nat) :
    (diskAllocIfZero st b j).2.addrs = st.addrs := by
  unfold diskAllocIfZero
  split
  · simp [balloc]
  · rfl

/-- C3 counterexample: file block 150 lies in [12, 12 + 256), yet bmap is
fatal there (the indirect block holds only 512 / 4 = 128 entries); and a
write ending at 141 blocks, well below 12 + 256, is already rejected by
the writei size check. -/
theorem bmap_range_counterexample :
    (12 ≤ 150 ∧ 150 < 12 + 256 ∧
      bmap ⟨fun _ => 0, fun _ _ => 0, 1⟩ 150 = none) ∧
    (140 * 512 + 512 ≤ (12 + 256) * 512 ∧
      writeiPrecheck (140 * 512) (140 * 512) 512 = true) :=
  ⟨⟨by decide, by decide, rfl⟩, by decide, by decide⟩

/-- C3 amended: with a valid allocator (fresh block numbers are nonzero),
bmap resolves file blocks below 12 through the direct array (leaving the
indirect slot alone), blocks in [12, 12 + 128) through the indirect block,
which it allocates on demand, and is fatal from 12 + 128 = 140 on; and
writei accepts writes up to 140 blocks and rejects any write extending
past 140 blocks. -/
theorem bmap_resolution (st : FsSt) (bn : Nat) (hfree : 1 ≤ st.nextFree) :
    (bn < NDIRECT →
      ∃ r st2, bmap st bn = some (r, st2) ∧ r ≠ 0 ∧ st2.addrs bn = r ∧
        st2.addrs NDIRECT = st.addrs NDIRECT) ∧
    (NDIRECT ≤ bn → bn < NDIRECT + NINDIRECT →
      ∃ r st2, bmap st bn = some (r, st2) ∧ r ≠ 0 ∧
        st2.addrs NDIRECT ≠ 0 ∧
        st2.disk (st2.addrs NDIRECT) (bn - NDIRECT) = r) ∧
    (NDIRECT + NINDIRECT ≤ bn → bmap st bn = none) ∧
    (∀ size off n : Nat, off ≤ size →
      (off + n ≤ MAXFILE * BSIZE → writeiPrecheck size off n = false) ∧
      (MAXFILE * BSIZE < off + n → writeiPrecheck size off n = true)) := by
  refine ⟨?_, ?_, ?_, ?_⟩
  · intro hlt
    have hne : NDIRECT ≠ bn := by omega
    unfold bmap
    rw [if_pos hlt]
    refine ⟨(ballocIfZero st bn).1, (ballocIfZero st bn).2, rfl,
      ballocIfZero_fst_ne st bn hfree, ballocIfZero_addrs_self st bn,
      ballocIfZero_addrs_other st bn NDIRECT hne⟩
  · intro h1 h2
    have hnd : ¬ bn < NDIRECT := by omega
    have hin : bn - NDIRECT < NINDIRECT := by omega
    unfold bmap
    rw [if_neg hnd, if_pos hin]
    refine ⟨(diskAllocIfZero (ballocIfZero st NDIRECT).2
        (ballocIfZero st NDIRECT).1 (bn - NDIRECT)).1,
      (diskAllocIfZero (ballocIfZero st NDIRECT).2
        (ballocIfZero st NDIRECT).1 (bn - NDIRECT)).2, rfl, ?_, ?_, ?_⟩
    · exact diskAllocIfZero_fst_ne _ _ _
        (ballocIfZero_nextFree st NDIRECT hfree)
    · rw [diskAllocIfZero_addrs, ballocIfZero_addrs_self]
      exact ballocIfZero_fst_ne st NDIRECT hfree
    · rw [diskAllocIfZero_addrs, ballocIfZero_addrs_self]
      exact diskAllocIfZero_disk_self _ _ _
  · intro hge
    have hnd : ¬ bn < NDIRECT := by omega
    have hin : ¬ bn - NDIRECT < NINDIRECT := by omega
    unfold bmap
    rw [if_neg hnd, if_neg hin]
  · intro size off n hoff
    constructor
    · intro hle
      simp only [writeiPrecheck, Bool.or_eq_false_iff,
        decide_eq_false_iff_not]
      omega
    · intro hgt
      simp only [writeiPrecheck, Bool.or_eq_true, decide_eq_true_eq]
      omega

/-- C6: sys_unlink returns -1 when the final component is "." or "..",
and when the target is a directory with any live entry beyond the first
two records ("." and ".."); and on every success it zeroes the removed
directory entry record, decrements the link count of the unlinked inode by
one, and decrements the link count of the parent by one exactly when the
target is a directory. -/
theorem sys_unlink_spec (ist : Nat → Inode) (dpi : Nat) (nm : DName) :
    (nm = DName.dot ∨ nm = DName.dotdot →
      sys_unlink ist dpi nm = some (-1, ist)) ∧
    (∀ inum off, dirlookup (ist dpi).ents nm = some (inum, off) →
      (ist inum).itype = IType.tDir → isdirempty (ist inum).ents = false →
      ¬ (nm = DName.dot ∨ nm = DName.dotdot) →
      1 ≤ (ist inum).nlink →
      sys_unlink ist dpi nm = some (-1, ist)) ∧
    (∀ inum off, dirlookup (ist dpi).ents nm = some (inum, off) →
      ¬ (nm = DName.dot ∨ nm = DName.dotdot) →
      1 ≤ (ist inum).nlink →
      ((ist inum).itype = IType.tDir → isdirempty (ist inum).ents = true) →
      inum ≠ dpi →
      ∃ ist2, sys_unlink ist dpi nm = some (0, ist2) ∧
        (ist2 dpi).ents =
          (ist dpi).ents.set off { inum := 0, name := DName.empty } ∧
        (ist2 inum).nlink = (ist inum).nlink - 1 ∧
        (ist2 dpi).nlink =
          (if (ist inum).itype = IType.tDir then (ist dpi).nlink - 1
            else (ist dpi).nlink) ∧
        (∀ j, j ≠ dpi → j ≠ inum → ist2 j = ist j)) := by
  refine ⟨?_, ?_, ?_⟩
  · intro h
    unfold sys_unlink
    rw [if_pos h]
  · intro inum off hlook hdir hemp hnotdot hnl
    unfold sys_unlink
    rw [if_neg hnotdot]
    simp only [hlook]
    rw [if_neg (show ¬ (ist inum).nlink < 1 by omega),
      if_pos (show (ist inum).itype = IType.tDir ∧
        ¬ isdirempty (ist inum).ents = true from ⟨hdir, by simp [hemp]⟩)]
  · intro inum off hlook hnotdot hnl hempty hne
    have hne2 : dpi ≠ inum := fun h => hne h.symm
    have hcond : ¬ ((ist inum).itype = IType.tDir ∧
        ¬ isdirempty (ist inum).ents = true) := by
      rintro ⟨hA, hB⟩
      exact hB (hempty hA)
    unfold sys_unlink
    rw [if_neg hnotdot]
    simp only [hlook]
    rw [if_neg (show ¬ (ist inum).nlink < 1 by omega), if_neg hcond]
    refine ⟨_, rfl, ?_, ?_, ?_, ?_⟩
    · simp [hne2]
    · simp [hne]
    · simp [hne2]
    · intro j hj1 hj2
      simp [hj1, hj2]

/-- Witness: unlinking the file entry of a two-entry directory store,
exercising the refusal and success cases of the unlink theorem. -/
theorem sys_unlink_spec_witness :
    ((DName.other 5 = DName.dot ∨ DName.other 5 = DName.dotdot →
      sys_unlink unlinkStore 1 (DName.other 5) = some (-1, unlinkStore)) ∧
    (∀ inum off,
      dirlookup (unlinkStore 1).ents (DName.other 5) = some (inum, off) →
      (unlinkStore inum).itype = IType.tDir →
      isdirempty (unlinkStore inum).ents = false →
      ¬ (DName.other 5 = DName.dot ∨ DName.other 5 = DName.dotdot) →
      1 ≤ (unlinkStore inum).nlink →
      sys_unlink unlinkStore 1 (DName.other 5) = some (-1, unlinkStore)) ∧
    (∀ inum off,
      dirlookup (unlinkStore 1).ents (DName.other 5) = some (inum, off) →
      ¬ (DName.other 5 = DName.dot ∨ DName.other 5 = DName.dotdot) →
      1 ≤ (unlinkStore inum).nlink →
      ((unlinkStore inum).itype = IType.tDir →
        isdirempty (unlinkStore inum).ents = true) →
      inum ≠ 1 →
      ∃ ist2, sys_unlink unlinkStore 1 (DName.other 5) = some (0, ist2) ∧
        (ist2 1).ents =
          (unlinkStore 1).ents.set off { inum := 0, name := DName.empty } ∧
        (ist2 inum).nlink = (unlinkStore inum).nlink - 1 ∧
        (ist2 1).nlink =
          (if (unlinkStore inum).itype = IType.tDir then
            (unlinkStore 1).nlink - 1
            else (unlinkStore 1).nlink) ∧
        (∀ j, j ≠ 1 → j ≠ inum → ist2 j = unlinkStore j))) :=
  sys_unlink_spec unlinkStore 1 (DName.other 5)

theorem putBytes_append (a b : List PEv) :
    putBytes (a ++ b) = putBytes a ++ putBytes b := by
  induction a with
  | nil => rfl
  | cons e r ih => cases e <;> simp [putBytes, ih]

theorem pipewriteGo_ret (env : Nat → WakeObs) (n : Int) :
    ∀ fuel src p killed k evs r p2 evs2,
      pipewriteGo env n fuel src p killed k evs = PWRes.ret r p2 evs2 →
      r = -1 ∨ (r = n ∧ p2.nwrite = p.nwrite + src.length ∧
        putBytes evs2 = putBytes evs ++ pbList p.nwrite src) := by
  intro fuel
  induction fuel with
  | zero =>
      intro src p killed k evs r p2 evs2 h
      cases src with
      | nil =>
          simp only [pipewriteGo] at h
          rw [PWRes.ret.injEq] at h
          obtain ⟨rfl, rfl, rfl⟩ := h
          right
          refine ⟨rfl, by simp, ?_⟩
          simp [putBytes_append, putBytes, pbList]
      | cons b rest =>
          simp only [pipewriteGo] at h
          exact PWRes.noConfusion h
  | succ f ih =>
      intro src p killed k evs r p2 evs2 h
      cases src with
      | nil =>
          simp only [pipewriteGo] at h
          rw [PWRes.ret.injEq] at h
          obtain ⟨rfl, rfl, rfl⟩ := h
          right
          refine ⟨rfl, by simp, ?_⟩
          simp [putBytes_append, putBytes, pbList]
      | cons b rest =>
          simp only [pipewriteGo] at h
          split at h
          · split at h
            · rw [PWRes.ret.injEq] at h
              obtain ⟨rfl, rfl, rfl⟩ := h
              left
              rfl
            · rcases ih _ _ _ _ _ _ _ _ h with h1 | ⟨h1, h2, h3⟩
              · left
                exact h1
              · right
                refine ⟨h1, by simpa using h2, ?_⟩
                rw [h3, putBytes_append]
                simp [putBytes]
          · rcases ih _ _ _ _ _ _ _ _ h with h1 | ⟨h1, h2, h3⟩
            · left
              exact h1
            · right
              refine ⟨h1, ?_, ?_⟩
              · simp only [List.length_cons]
                simp at h2
                omega
              · rw [h3, putBytes_append]
                simp [putBytes, pbList]

theorem pipewriteGo_evs_extend (env : Nat → WakeObs) (n : Int) :
    ∀ fuel src p killed k evs,
      ∃ t, (pipewriteGo env n fuel src p killed k evs).evs = evs ++ t := by
  intro fuel
  induction fuel with
  | zero =>
      intro src p killed k evs
      cases src with
      | nil => exact ⟨[PEv.wakeupRead], by simp [pipewriteGo, PWRes.evs]⟩
      | cons b rest => exact ⟨[], by simp [pipewriteGo, PWRes.evs]⟩
  | succ f ih =>
      intro src p killed k evs
      cases src with
      | nil => exact ⟨[PEv.wakeupRead], by simp [pipewriteGo, PWRes.evs]⟩
      | cons b rest =>
          simp only [pipewriteGo]
          split
          · split
            · exact ⟨[], by simp [PWRes.evs]⟩
            · obtain ⟨t, ht⟩ := ih (b :: rest)
                { p with nread := (env k).nread, readopen := (env k).readopen }
                (env k).killed (k + 1)
                (evs ++ [PEv.wakeupRead, PEv.sleepWrite])
              exact ⟨[PEv.wakeupRead, PEv.sleepWrite] ++ t, by
                rw [ht, List.append_assoc]⟩
          · obtain ⟨t, ht⟩ := ih rest
              { p with
                data := fun j => if j = p.nwrite % PIPESIZE then b
                  else p.data j
                nwrite := p.nwrite + 1 }
              killed k (evs ++ [PEv.putByte (p.nwrite % PIPESIZE) b])
            exact ⟨[PEv.putByte (p.nwrite % PIPESIZE) b] ++ t, by
              rw [ht, List.append_assoc]⟩

theorem pipewriteGo_success (env : Nat → WakeObs) (n : Int) :
    ∀ src fuel p killed k evs,
      p.nwrite + src.length ≤ p.nread + PIPESIZE →
      src.length ≤ fuel →
      ∃ p2 evs2,
        pipewriteGo env n fuel src p killed k evs = PWRes.ret n p2 evs2 := by
  intro src
  induction src with
  | nil =>
      intro fuel p killed k evs h1 h2
      exact ⟨p, evs ++ [PEv.wakeupRead], by simp [pipewriteGo]⟩
  | cons b rest ih =>
      intro fuel p killed k evs h1 h2
      cases fuel with
      | zero => simp at h2
      | succ f =>
          have hnf : ¬ p.nwrite = p.nread + PIPESIZE := by
            simp only [List.length_cons] at h1
            omega
          simp only [pipewriteGo]
          rw [if_neg hnf]
          apply ih
          · simp only [List.length_cons] at h1
            simp
            omega
          · simp only [List.length_cons] at h2
            omega

/-- C9: for every pipe and byte list, every terminating pipewrite either
returns -1 or returns the full byte count having stored every byte, one
store per byte at consecutive write-cursor slots; on a full buffer with
the read end closed or the caller killed, it returns -1 immediately with
the pipe untouched and nothing written; on a full buffer otherwise, its
first actions are a wakeup of the readers followed by a sleep on the
write channel; and with enough free space it returns the full count. -/
theorem pipewrite_spec (env : Nat → WakeObs) (p : PipeBuf) (src : List Nat) :
    (∀ fuel killed r p2 evs2,
      pipewrite env fuel p killed src = PWRes.ret r p2 evs2 →
      r = -1 ∨ (r = (src.length : Int) ∧ p2.nwrite = p.nwrite + src.length ∧
        putBytes evs2 = pbList p.nwrite src)) ∧
    (∀ fuel killed b rest, src = b :: rest →
      p.nwrite = p.nread + PIPESIZE → (p.readopen = false ∨ killed = true) →
      pipewrite env (fuel + 1) p killed src = PWRes.ret (-1) p []) ∧
    (∀ fuel b rest, src = b :: rest → p.nwrite = p.nread + PIPESIZE →
      p.readopen = true →
      ∃ t, (pipewrite env (fuel + 1) p false src).evs =
        [PEv.wakeupRead, PEv.sleepWrite] ++ t) ∧
    (∀ fuel killed, p.nwrite + src.length ≤ p.nread + PIPESIZE →
      src.length ≤ fuel →
      ∃ p2 evs2, pipewrite env fuel p killed src =
        PWRes.ret (src.length : Int) p2 evs2) := by
  refine ⟨?_, ?_, ?_, ?_⟩
  · intro fuel killed r p2 evs2 h
    have := pipewriteGo_ret env (src.length : Int) fuel src p killed 0 [] r
      p2 evs2 h
    simpa [putBytes] using this
  · intro fuel killed b rest hsrc hfull hck
    subst hsrc
    unfold pipewrite
    simp only [pipewriteGo]
    rw [if_pos hfull, if_pos hck]
  · intro fuel b rest hsrc hfull hopen
    subst hsrc
    unfold pipewrite
    simp only [pipewriteGo]
    rw [if_pos hfull,
      if_neg (show ¬ (p.readopen = false ∨ false = true) by simp [hopen])]
    simpa using pipewriteGo_evs_extend env ((b :: rest).length : Int) fuel
      (b :: rest)
      { p with nread := (env 0).nread, readopen := (env 0).readopen }
      (env 0).killed 1 [PEv.wakeupRead, PEv.sleepWrite]
  · intro fuel killed h1 h2
    exact pipewriteGo_success env (src.length : Int) src fuel p killed 0 []
      h1 h2

/-- Witness for the pipewrite theorem: an empty open pipe receiving one
byte, with an environment that never intervenes. -/
theorem pipewrite_spec_witness :
    ((∀ fuel killed r p2 evs2,
      pipewrite (fun _ => ⟨0, true, false⟩) fuel ⟨fun _ => 0, 0, 0, true⟩
        killed [7] = PWRes.ret r p2 evs2 →
      r = -1 ∨ (r = (([7] : List Nat).length : Int) ∧
        p2.nwrite = (⟨fun _ => 0, 0, 0, true⟩ : PipeBuf).nwrite +
          ([7] : List Nat).length ∧
        putBytes evs2 = pbList (⟨fun _ => 0, 0, 0, true⟩ : PipeBuf).nwrite
          [7])) ∧
    (∀ fuel killed b rest, ([7] : List Nat) = b :: rest →
      (⟨fun _ => 0, 0, 0, true⟩ : PipeBuf).nwrite =
        (⟨fun _ => 0, 0, 0, true⟩ : PipeBuf).nread + PIPESIZE →
      ((⟨fun _ => 0, 0, 0, true⟩ : PipeBuf).readopen = false ∨
        killed = true) →
      pipewrite (fun _ => ⟨0, true, false⟩) (fuel + 1)
        ⟨fun _ => 0, 0, 0, true⟩ killed [7] =
        PWRes.ret (-1) ⟨fun _ => 0, 0, 0, true⟩ []) ∧
    (∀ fuel b rest, ([7] : List Nat) = b :: rest →
      (⟨fun _ => 0, 0, 0, true⟩ : PipeBuf).nwrite =
        (⟨fun _ => 0, 0, 0, true⟩ : PipeBuf).nread + PIPESIZE →
      (⟨fun _ => 0, 0, 0, true⟩ : PipeBuf).readopen = true →
      ∃ t, (pipewrite (fun _ => ⟨0, true, false⟩) (fuel + 1)
        ⟨fun _ => 0, 0, 0, true⟩ false [7]).evs =
        [PEv.wakeupRead, PEv.sleepWrite] ++ t) ∧
    (∀ fuel killed,
      (⟨fun _ => 0, 0, 0, true⟩ : PipeBuf).nwrite +
        ([7] : List Nat).length ≤
        (⟨fun _ => 0, 0, 0, true⟩ : PipeBuf).nread + PIPESIZE →
      ([7] : List Nat).length ≤ fuel →
      ∃ p2 evs2, pipewrite (fun _ => ⟨0, true, false⟩) fuel
        ⟨fun _ => 0, 0, 0, true⟩ killed [7] =
        PWRes.ret (([7] : List Nat).length : Int) p2 evs2)) :=
  pipewrite_spec (fun _ => ⟨0, true, false⟩) ⟨fun _ => 0, 0, 0, true⟩ [7]

theorem page_of_pdx_ptx (va : Nat) (h32 : va < 4294967296) :
    va / PGSIZE = 1024 * PDX va + PTX va := by
  simp only [PDX, PTX, PGSIZE]
  rw [show (4194304 : Nat) = 4096 * 1024 from rfl, ← Nat.div_div_eq_div_mul]
  omega

theorem addr_eq_of_slot_eq (va a : Nat) (hva : va % PGSIZE = 0)
    (ha : a % PGSIZE = 0) (hva32 : va < 4294967296) (ha32 : a < 4294967296)
    (hd : PDX va = PDX a) (ht : PTX va = PTX a) : va = a := by
  have h1 := page_of_pdx_ptx va hva32
  have h2 := page_of_pdx_ptx a ha32
  simp only [PGSIZE] at h1 h2 hva ha
  omega

theorem pdx_jump_bounds (a : Nat) (h32 : a < 4294967296) :
    a < (PDX a + 1) * (NPTENTRIES * PGSIZE) ∧
    (PDX a + 1) * (NPTENTRIES * PGSIZE) ≤ 4294967296 ∧
    ((PDX a + 1) * (NPTENTRIES * PGSIZE)) % PGSIZE = 0 := by
  simp only [PDX, NPTENTRIES, PGSIZE]
  omega

theorem pdx_eq_in_slot (a va : Nat) (h32 : a < 4294967296) (h1 : a ≤ va)
    (h2 : va < (PDX a + 1) * (NPTENTRIES * PGSIZE)) : PDX va = PDX a := by
  simp only [PDX, NPTENTRIES, PGSIZE] at h2 ⊢
  omega

theorem pview_setPte_self (st : VmSt) (a : Nat) (e : PTE) (t : Nat → PTE)
    (h : st.pd (PDX a) = some t) :
    pview (setPte st a e) a =
      (if e.present then (true, e.frame) else (false, 0)) := by
  simp [pview, setPte, h]

theorem pview_setPte_other (st : VmSt) (a va : Nat) (e : PTE)
    (h : ¬ (PDX va = PDX a ∧ PTX va = PTX a)) :
    pview (setPte st a e) va = pview st va := by
  by_cases hd : PDX va = PDX a
  · have ht : ¬ PTX va = PTX a := fun hh => h ⟨hd, hh⟩
    cases hpd : st.pd (PDX a) with
    | none => simp [pview, setPte, hd, hpd]
    | some t => simp [pview, setPte, hd, hpd, ht]
  · simp [pview, setPte, hd]

theorem pview_setPte_ne (st : VmSt) (a va : Nat) (e : PTE)
    (hva : va % PGSIZE = 0) (ha : a % PGSIZE = 0) (hva32 : va < 4294967296)
    (ha32 : a < 4294967296) (hne : va ≠ a) :
    pview (setPte st a e) va = pview st va := by
  apply pview_setPte_other
  rintro ⟨hd, ht⟩
  exact hne (addr_eq_of_slot_eq va a hva ha hva32 ha32 hd ht)

theorem walkAlloc_spec (st : VmSt) (va : Nat) (st1 : VmSt) (t : Nat → PTE)
    (h : walkAlloc st va = some (st1, t)) :
    st1.pd (PDX va) = some t ∧ (∀ w, pview st1 w = pview st w) ∧
    st1.mem = st.mem ∧ (st1.free = st.free ∨ st1.free = st.free.tail) ∧
    (t (PTX va)).present = (pview st va).1 := by
  unfold walkAlloc at h
  cases hpd : st.pd (PDX va) with
  | some t0 =>
      rw [hpd] at h
      rw [Option.some_inj, Prod.mk.injEq] at h
      obtain ⟨rfl, rfl⟩ := h
      refine ⟨hpd, fun w => rfl, rfl, Or.inl rfl, ?_⟩
      cases hp : (t0 (PTX va)).present <;> simp [pview, hpd, hp]
  | none =>
      rw [hpd] at h
      cases hfree : st.free with
      | nil =>
          rw [hfree] at h
          exact Option.noConfusion h
      | cons m rest =>
          rw [hfree] at h
          rw [Option.some_inj, Prod.mk.injEq] at h
          obtain ⟨rfl, rfl⟩ := h
          refine ⟨by simp, ?_, rfl, Or.inr rfl, ?_⟩
          · intro w
            by_cases hw : PDX w = PDX va
            · simp [pview, hw, hpd]
            · simp [pview, hw]
          · simp [pview, hpd]

theorem deallocLoop_spec (up : Nat) (hup32 : up ≤ 4294967296) :
    ∀ fuel a st,
      up ≤ a + fuel →
      a % PGSIZE = 0 →
      (∀ va, va % PGSIZE = 0 → a ≤ va → va < up →
        (pview st va).1 = true → (pview st va).2 ≠ 0) →
      ∃ st2, deallocLoop up fuel a st = some st2 ∧
        (∀ va, va % PGSIZE = 0 → va < 4294967296 →
          (a ≤ va ∧ va < up → pview st2 va = (false, 0)) ∧
          (¬ (a ≤ va ∧ va < up) → pview st2 va = pview st va)) ∧
        st2.mem = st.mem := by
  intro fuel
  induction fuel with
  | zero =>
      intro a st hfuel halign hnz
      have hge : ¬ a < up := by omega
      refine ⟨st, by simp [deallocLoop, hge], ?_, rfl⟩
      intro va hva hva32
      exact ⟨fun h => absurd h (by omega), fun _ => rfl⟩
  | succ f ih =>
      intro a st hfuel halign hnz
      by_cases hlt : a < up
      case neg =>
        refine ⟨st, by simp [deallocLoop, hlt], ?_, rfl⟩
        intro va hva hva32
        exact ⟨fun h => absurd h (by omega), fun _ => rfl⟩
      case pos =>
        have ha32 : a < 4294967296 := by omega
        cases hpd : st.pd (PDX a) with
        | none =>
            obtain ⟨hstep, hj32, hjalign⟩ := pdx_jump_bounds a ha32
            have hnone : ∀ va, a ≤ va →
                va < (PDX a + 1) * (NPTENTRIES * PGSIZE) →
                pview st va = (false, 0) := by
              intro va h1 h2
              have hx := pdx_eq_in_slot a va ha32 h1 h2
              simp [pview, hx, hpd]
            obtain ⟨st2, heq, hpost, hmem⟩ :=
              ih ((PDX a + 1) * (NPTENTRIES * PGSIZE)) st (by omega) hjalign
                (fun va hva hge hlt2 h1 => hnz va hva (by omega) hlt2 h1)
            refine ⟨st2, ?_, ?_, hmem⟩
            · simp only [deallocLoop]
              rw [if_pos hlt]
              simp only [hpd]
              exact heq
            · intro va hva hva32
              obtain ⟨hin, hout⟩ := hpost va hva hva32
              constructor
              · intro h
                by_cases hv2 : (PDX a + 1) * (NPTENTRIES * PGSIZE) ≤ va
                · exact hin ⟨hv2, h.2⟩
                · rw [hout (by omega)]
                  exact hnone va h.1 (by omega)
              · intro h
                exact hout (by omega)
        | some t =>
            have halign4 : a % 4096 = 0 := by simpa [PGSIZE] using halign
            have hfuel2 : up ≤ (a + PGSIZE) + f := by
              simp only [PGSIZE]
              omega
            have halign2 : (a + PGSIZE) % PGSIZE = 0 := by
              simp only [PGSIZE]
              omega
            have hsucc_le : ∀ va : Nat, a + PGSIZE ≤ va → a ≤ va := by
              simp only [PGSIZE]
              omega
            by_cases hpres : (t (PTX a)).present
            case pos =>
              have hpa : (pview st a).1 = true := by
                simp [pview, hpd, hpres]
              have hfr : (pview st a).2 = (t (PTX a)).frame := by
                simp [pview, hpd, hpres]
              have hnz0 : ¬ (t (PTX a)).frame = 0 := by
                have hh := hnz a halign (le_refl a) hlt hpa
                rw [hfr] at hh
                exact hh
              have hsetself :
                  pview (setPte st a { present := false, frame := 0 }) a
                    = (false, 0) := by
                rw [pview_setPte_self st a _ t hpd]
                simp
              have hnzmid : ∀ va, va % PGSIZE = 0 → a + PGSIZE ≤ va →
                  va < up →
                  (pview
                    { setPte st a { present := false, frame := 0 } with
                      free := (t (PTX a)).frame :: st.free } va).1 = true →
                  (pview
                    { setPte st a { present := false, frame := 0 } with
                      free := (t (PTX a)).frame :: st.free } va).2 ≠ 0 := by
                intro va hva hge hlt2 h1
                have hva32 : va < 4294967296 := by omega
                have hne : va ≠ a := by
                  have := hsucc_le va hge
                  simp only [PGSIZE] at hge
                  omega
                have hmid :
                    pview
                      { setPte st a { present := false, frame := 0 } with
                        free := (t (PTX a)).frame :: st.free } va
                      = pview st va :=
                  pview_setPte_ne st a va _ hva halign hva32 ha32 hne
                rw [hmid] at h1 ⊢
                exact hnz va hva (hsucc_le va hge) hlt2 h1
              obtain ⟨st2, heq, hpost, hmem⟩ :=
                ih (a + PGSIZE)
                  { setPte st a { present := false, frame := 0 } with
                    free := (t (PTX a)).frame :: st.free }
                  hfuel2 halign2 hnzmid
              refine ⟨st2, ?_, ?_, hmem⟩
              · simp only [deallocLoop]
                rw [if_pos hlt]
                simp only [hpd, hpres, if_true]
                rw [if_neg hnz0]
                exact heq
              · intro va hva hva32
                obtain ⟨hin, hout⟩ := hpost va hva hva32
                have hva4 : va % 4096 = 0 := by simpa [PGSIZE] using hva
                constructor
                · intro h
                  by_cases hv : a + PGSIZE ≤ va
                  · exact hin ⟨hv, h.2⟩
                  · have hva_eq : va = a := by
                      simp only [PGSIZE] at hv
                      omega
                    subst hva_eq
                    rw [hout (fun hc => hv hc.1)]
                    exact hsetself
                · intro h
                  rw [hout (fun hc => h ⟨hsucc_le va hc.1, hc.2⟩)]
                  have hne : va ≠ a := fun hh => h (by
                    rw [hh]
                    exact ⟨le_refl a, hlt⟩)
                  exact pview_setPte_ne st a va _ hva halign hva32 ha32 hne
            case neg =>
              have hviewa : pview st a = (false, 0) := by
                simp [pview, hpd, hpres]
              obtain ⟨st2, heq, hpost, hmem⟩ :=
                ih (a + PGSIZE) st hfuel2 halign2
                  (fun va hva hge hlt2 h1 =>
                    hnz va hva (hsucc_le va hge) hlt2 h1)
              refine ⟨st2, ?_, ?_, hmem⟩
              · simp only [deallocLoop]
                rw [if_pos hlt]
                simp only [hpd, hpres, if_false]
                exact heq
              · intro va hva hva32
                obtain ⟨hin, hout⟩ := hpost va hva hva32
                have hva4 : va % 4096 = 0 := by simpa [PGSIZE] using hva
                constructor
                · intro h
                  by_cases hv : a + PGSIZE ≤ va
                  · exact hin ⟨hv, h.2⟩
                  · have hva_eq : va = a := by
                      simp only [PGSIZE] at hv
                      omega
                    subst hva_eq
                    rw [hout (fun hc => hv hc.1)]
                    exact hviewa
                · intro h
                  exact hout (fun hc => h ⟨hsucc_le va hc.1, hc.2⟩)

theorem pgroundup_ge (sz : Nat) : sz ≤ PGROUNDUP sz := by
  simp only [PGROUNDUP, PGSIZE]
  omega

theorem pgroundup_align (sz : Nat) : PGROUNDUP sz % PGSIZE = 0 := by
  simp only [PGROUNDUP, PGSIZE]
  omega

theorem allocLoop_spec (newszV oldszV : Nat) (hker : newszV < KERNBASE) :
    ∀ fuel a st,
      newszV ≤ a + fuel →
      a % PGSIZE = 0 →
      PGROUNDUP oldszV ≤ a →
      (∀ va, va % PGSIZE = 0 → a ≤ va → va < newszV →
        pview st va = (false, 0)) →
      (∀ va, va % PGSIZE = 0 → PGROUNDUP oldszV ≤ va → va < newszV →
        (pview st va).1 = true → (pview st va).2 ≠ 0) →
      0 ∉ st.free → st.free.Nodup →
      ∃ res, allocLoop newszV oldszV fuel a st = some res ∧
        ((res.1 = newszV ∧
          (∀ va, va % PGSIZE = 0 → a ≤ va → va < newszV →
            ∃ fr, pview res.2 va = (true, fr) ∧ fr ≠ 0 ∧
              ∀ off, res.2.mem fr off = 0) ∧
          (∀ va, va % PGSIZE = 0 → va < 4294967296 →
            ¬ (a ≤ va ∧ va < newszV) → pview res.2 va = pview st va) ∧
          (∀ fr, fr ∉ st.free → res.2.mem fr = st.mem fr)) ∨
        (res.1 = 0 ∧
          (∀ va, va % PGSIZE = 0 → va < 4294967296 →
            (PGROUNDUP oldszV ≤ va ∧ va < newszV →
              pview res.2 va = (false, 0)) ∧
            (¬ (PGROUNDUP oldszV ≤ va ∧ va < newszV) →
              pview res.2 va = pview st va)))) := by
  have hKB : KERNBASE = 2147483648 := rfl
  intro fuel
  induction fuel with
  | zero =>
      intro a st hfuel halign hup2 hclean hnzlow h0 hnodup
      have hge : ¬ a < newszV := by omega
      refine ⟨(newszV, st), by simp [allocLoop, hge], Or.inl ⟨rfl, ?_, ?_, ?_⟩⟩
      · intro va hva h1 h2
        exact absurd (lt_of_le_of_lt h1 h2) (by omega)
      · intro va hva hva32 h
        rfl
      · intro fr hfr
        rfl
  | succ f ih =>
      intro a st hfuel halign hup2 hclean hnzlow h0 hnodup
      by_cases hlt : a < newszV
      case neg =>
        refine ⟨(newszV, st), by simp [allocLoop, hlt], Or.inl ⟨rfl, ?_, ?_, ?_⟩⟩
        · intro va hva h1 h2
          exact absurd (lt_of_le_of_lt h1 h2) (by omega)
        · intro va hva hva32 h
          rfl
        · intro fr hfr
          rfl
      case pos =>
        have ha32 : a < 4294967296 := by omega
        have hnup32 : newszV ≤ 4294967296 := by omega
        have holt : ¬ newszV ≤ oldszV := by
          have h1 := pgroundup_ge oldszV
          omega
        have hdnz : ∀ va, va % PGSIZE = 0 → PGROUNDUP oldszV ≤ va →
            va < newszV → (pview st va).1 = true → (pview st va).2 ≠ 0 :=
          hnzlow
        cases hfree : st.free with
        | nil =>
            obtain ⟨st2, heq, hpost, hmem⟩ :=
              deallocLoop_spec newszV hnup32 newszV (PGROUNDUP oldszV) st
                (by omega) (pgroundup_align oldszV) hdnz
            refine ⟨(0, st2), ?_, Or.inr ⟨rfl, ?_⟩⟩
            · simp only [allocLoop]
              rw [if_pos hlt, hfree]
              simp only [kallocPage]
              unfold deallocuvm
              rw [if_neg holt, heq]
              rfl
            · intro va hva hva32
              exact hpost va hva hva32
        | cons m rest =>
            have hm0 : m ≠ 0 := by
              intro hh
              rw [hh] at hfree
              exact h0 (by rw [hfree]; exact List.mem_cons_self 0 rest)
            have hmrest : m ∉ rest := by
              have := hnodup
              rw [hfree] at this
              exact (List.nodup_cons.mp this).1
            have h0rest : 0 ∉ rest := by
              intro hh
              exact h0 (by rw [hfree]; exact List.mem_cons_of_mem m hh)
            have hnodrest : rest.Nodup := by
              have := hnodup
              rw [hfree] at this
              exact (List.nodup_cons.mp this).2
            -- the state after kalloc and memset
            set st1 : VmSt :=
              { st with
                free := rest
                mem := fun fr => if fr = m then (fun _ => 0) else st.mem fr }
              with hst1
            have hpv1 : ∀ w, pview st1 w = pview st w := fun w => rfl
            cases hw : walkAlloc st1 a with
            | none =>
                obtain ⟨st2, heq, hpost, hmem⟩ :=
                  deallocLoop_spec newszV hnup32 newszV (PGROUNDUP oldszV)
                    st1 (by omega) (pgroundup_align oldszV)
                    (fun va hva h1 h2 h3 => by
                      rw [hpv1] at h3 ⊢
                      exact hdnz va hva h1 h2 h3)
                refine ⟨(0, { st2 with free := m :: st2.free }), ?_,
                  Or.inr ⟨rfl, ?_⟩⟩
                · simp only [allocLoop]
                  rw [if_pos hlt, hfree]
                  simp only [kallocPage]
                  simp only [mappage, hw]
                  unfold deallocuvm
                  rw [if_neg holt, heq]
                  rfl
                · intro va hva hva32
                  obtain ⟨hin, hout⟩ := hpost va hva hva32
                  exact ⟨fun h => hin h, fun h => (hout h).trans (hpv1 va)⟩
            | some pr =>
                obtain ⟨stw, tw⟩ := pr
                obtain ⟨hwpd, hwpv, hwmem, hwfree, hwpres⟩ :=
                  walkAlloc_spec st1 a stw tw hw
                have hsta : pview st1 a = (false, 0) := by
                  rw [hpv1]
                  exact hclean a halign (le_refl a) hlt
                have hpresf : ¬ (tw (PTX a)).present = true := by
                  rw [hwpres, hsta]
                  simp
                have hmap : mappage st1 a m =
                    MapRes.ok (setPte stw a { present := true, frame := m }) := by
                  unfold mappage
                  simp only [hw]
                  rw [if_neg hpresf]
                set st2 : VmSt := setPte stw a { present := true, frame := m }
                  with hst2
                have hpv2a : pview st2 a = (true, m) := by
                  rw [hst2, pview_setPte_self stw a _ tw hwpd]
                  rfl
                have hpv2 : ∀ w, w % PGSIZE = 0 → w < 4294967296 → w ≠ a →
                    pview st2 w = pview st w := by
                  intro w hwa hw32 hwne
                  rw [hst2, pview_setPte_ne stw a w _ hwa halign hw32 ha32
                    hwne, hwpv, hpv1]
                have hmem2 : st2.mem = st1.mem := hwmem
                have hfree2 : st2.free = rest ∨ st2.free = rest.tail := by
                  rcases hwfree with h | h
                  · exact Or.inl h
                  · exact Or.inr h
                have hsub2 : ∀ x, x ∈ st2.free → x ∈ rest := by
                  intro x hx
                  rcases hfree2 with h | h
                  · rw [h] at hx
                    exact hx
                  · rw [h] at hx
                    exact List.tail_subset rest hx
                have h02 : 0 ∉ st2.free := fun hh => h0rest (hsub2 0 hh)
                have hnod2 : st2.free.Nodup := by
                  rcases hfree2 with h | h
                  · rw [h]
                    exact hnodrest
                  · rw [h]
                    cases rest with
                    | nil => exact List.nodup_nil
                    | cons x xs => exact (List.nodup_cons.mp hnodrest).2
                have hm2 : m ∉ st2.free := fun hh => hmrest (hsub2 m hh)
                have hPG : PGSIZE = 4096 := rfl
                have hfuel2 : newszV ≤ (a + PGSIZE) + f := by omega
                have halign2 : (a + PGSIZE) % PGSIZE = 0 := by
                  simp only [PGSIZE]
                  simp only [PGSIZE] at halign
                  omega
                have hup22 : PGROUNDUP oldszV ≤ a + PGSIZE := by omega
                have hclean2 : ∀ va, va % PGSIZE = 0 → a + PGSIZE ≤ va →
                    va < newszV → pview st2 va = (false, 0) := by
                  intro va hva h1 h2
                  have hne : va ≠ a := by omega
                  rw [hpv2 va hva (by omega) hne]
                  exact hclean va hva (by omega) h2
                have hnzlow2 : ∀ va, va % PGSIZE = 0 →
                    PGROUNDUP oldszV ≤ va → va < newszV →
                    (pview st2 va).1 = true → (pview st2 va).2 ≠ 0 := by
                  intro va hva h1 h2 h3
                  by_cases hne : va = a
                  · rw [hne, hpv2a]
                    exact hm0
                  · rw [hpv2 va hva (by omega) hne] at h3 ⊢
                    exact hnzlow va hva h1 h2 h3
                obtain ⟨res, heq, hres⟩ :=
                  ih (a + PGSIZE) st2 hfuel2 halign2 hup22 hclean2 hnzlow2
                    h02 hnod2
                refine ⟨res, ?_, ?_⟩
                · simp only [allocLoop]
                  rw [if_pos hlt, hfree]
                  simp only [kallocPage]
                  simp only [hmap]
                  exact heq
                · rcases hres with ⟨hr1, hin, hout, hmemp⟩ | ⟨hr1, hfail⟩
                  · left
                    refine ⟨hr1, ?_, ?_, ?_⟩
                    · intro va hva h1 h2
                      by_cases hv : a + PGSIZE ≤ va
                      · exact hin va hva hv h2
                      · have hva_eq : va = a := by
                          simp only [PGSIZE] at hv halign hva
                          omega
                        subst hva_eq
                        refine ⟨m, ?_, hm0, ?_⟩
                        · rw [hout va hva (by omega) (by omega), hpv2a]
                        · intro off
                          have hmm := hmemp m hm2
                          rw [hmm, hmem2]
                          simp [hst1]
                    · intro va hva hva32 h
                      have hne : va ≠ a := by
                        intro hh
                        exact h (by
                          rw [hh]
                          exact ⟨le_refl a, hlt⟩)
                      rw [hout va hva hva32 (by
                        intro hc
                        exact h ⟨by omega, hc.2⟩)]
                      exact hpv2 va hva hva32 hne
                    · intro fr hfr
                      have hfr2 : fr ∉ m :: rest := hfr
                      have hfrm : fr ≠ m := by
                        intro hh
                        rw [hh] at hfr2
                        exact hfr2 (List.mem_cons_self m rest)
                      have hfrr : fr ∉ st2.free := fun hh =>
                        hfr2 (List.mem_cons_of_mem m (hsub2 fr hh))
                      rw [hmemp fr hfrr, hmem2]
                      simp [hst1, hfrm]
                  · right
                    refine ⟨hr1, ?_⟩
                    intro va hva hva32
                    obtain ⟨hfin, hfout⟩ := hfail va hva hva32
                    refine ⟨hfin, ?_⟩
                    intro h
                    have hne : va ≠ a := by
                      intro hh
                      exact h (by
                        rw [hh]
                        exact ⟨hup2, hlt⟩)
                    rw [hfout h]
                    exact hpv2 va hva hva32 hne

/-- C5: for old_sz ≤ new_sz below the kernel base, when the pages at or
above PGROUNDUP(old_sz) are unmapped (the state allocuvm is called in)
and the freelist holds nonzero, duplicate-free frames, allocuvm either
returns new_sz having mapped a fresh zeroed page at every page-aligned
address from PGROUNDUP(old_sz) up to new_sz and left every other mapping
unchanged, or — when an allocation step fails — returns 0 with every
user mapping exactly as before the call, rolled back through
deallocuvm. -/
theorem allocuvm_spec (st : VmSt) (oldszV newszV : Nat)
    (hle : oldszV ≤ newszV) (hker : newszV < KERNBASE)
    (hclean : ∀ va, va % PGSIZE = 0 → PGROUNDUP oldszV ≤ va →
      va < newszV → pview st va = (false, 0))
    (hfree0 : 0 ∉ st.free) (hnodup : st.free.Nodup) :
    ∃ res, allocuvm st oldszV newszV = some res ∧
      ((res.1 = newszV ∧
        (∀ va, va % PGSIZE = 0 → PGROUNDUP oldszV ≤ va → va < newszV →
          ∃ fr, pview res.2 va = (true, fr) ∧ fr ≠ 0 ∧
            ∀ off, res.2.mem fr off = 0) ∧
        (∀ va, va % PGSIZE = 0 → va < 4294967296 →
          ¬ (PGROUNDUP oldszV ≤ va ∧ va < newszV) →
          pview res.2 va = pview st va)) ∨
      (res.1 = 0 ∧
        ∀ va, va % PGSIZE = 0 → va < 4294967296 →
          pview res.2 va = pview st va)) := by
  have hKB : KERNBASE = 2147483648 := rfl
  obtain ⟨res, heq, hres⟩ := allocLoop_spec newszV oldszV hker newszV
    (PGROUNDUP oldszV) st (by omega) (pgroundup_align oldszV) (le_refl _)
    hclean
    (fun va hva h1 h2 h3 => by
      rw [hclean va hva h1 h2] at h3
      simp at h3)
    hfree0 hnodup
  refine ⟨res, ?_, ?_⟩
  · unfold allocuvm
    rw [if_neg (by omega : ¬ KERNBASE ≤ newszV),
      if_neg (by omega : ¬ newszV < oldszV)]
    exact heq
  · rcases hres with ⟨h1, hin, hout, hmem⟩ | ⟨h1, hfail⟩
    · exact Or.inl ⟨h1, hin, hout⟩
    · right
      refine ⟨h1, ?_⟩
      intro va hva hva32
      obtain ⟨hfin, hfout⟩ := hfail va hva hva32
      by_cases hr : PGROUNDUP oldszV ≤ va ∧ va < newszV
      · rw [hfin hr, hclean va hva hr.1 hr.2]
      · exact hfout hr

/-- A concrete state for the allocuvm witness: empty directory, two free
frames, zeroed memory. -/
def vmInitSt : VmSt :=
  { pd := fun _ => none, free := [8192, 12288], mem := fun _ _ => 0 }

/-- Witness for the allocuvm theorem: growing from 0 to one page with two
free frames and an empty directory. -/
theorem allocuvm_spec_witness :
    ∃ res,
      allocuvm vmInitSt 0 4096 = some res ∧
      ((res.1 = 4096 ∧
        (∀ va, va % PGSIZE = 0 → PGROUNDUP 0 ≤ va → va < 4096 →
          ∃ fr, pview res.2 va = (true, fr) ∧ fr ≠ 0 ∧
            ∀ off, res.2.mem fr off = 0) ∧
        (∀ va, va % PGSIZE = 0 → va < 4294967296 →
          ¬ (PGROUNDUP 0 ≤ va ∧ va < 4096) →
          pview res.2 va = pview vmInitSt va)) ∨
      (res.1 = 0 ∧
        ∀ va, va % PGSIZE = 0 → va < 4294967296 →
          pview res.2 va = pview vmInitSt va)) :=
  allocuvm_spec vmInitSt 0 4096 (by decide) (by decide)
    (fun va h1 h2 h3 => rfl) (by decide) (by decide)

/-- Witness for the block-map theorem at an empty inode and allocator
counter 1, exercising every range of the case split. -/
theorem bmap_resolution_witness :
    ((13 : Nat) < NDIRECT →
      ∃ r st2, bmap ⟨fun _ => 0, fun _ _ => 0, 1⟩ 13 = some (r, st2) ∧
        r ≠ 0 ∧ st2.addrs 13 = r ∧
        st2.addrs NDIRECT = (fun _ => 0 : Nat → Nat) NDIRECT) ∧
    (NDIRECT ≤ 13 → (13 : Nat) < NDIRECT + NINDIRECT →
      ∃ r st2, bmap ⟨fun _ => 0, fun _ _ => 0, 1⟩ 13 = some (r, st2) ∧
        r ≠ 0 ∧ st2.addrs NDIRECT ≠ 0 ∧
        st2.disk (st2.addrs NDIRECT) (13 - NDIRECT) = r) ∧
    (NDIRECT + NINDIRECT ≤ 13 → bmap ⟨fun _ => 0, fun _ _ => 0, 1⟩ 13 = none) ∧
    (∀ size off n : Nat, off ≤ size →
      (off + n ≤ MAXFILE * BSIZE → writeiPrecheck size off n = false) ∧
      (MAXFILE * BSIZE < off + n → writeiPrecheck size off n = true)) :=
  bmap_resolution ⟨fun _ => 0, fun _ _ => 0, 1⟩ 13 (by decide)

end Xv6
